import Mathlib

/-!
# Partition routing of the Aerospike C client

A shallow embedding of `src/include/aerospike/as_partition.h`: the partition
map data model, the digest-to-partition-id function `as_partition_getid`, and
the reference-counted release of a partition-table collection
`as_partition_tables_release`.

Conventions of the embedding:

* `uint8_t` is `Fin 256`; `uint32_t` values are natural numbers, every
  arithmetic step on them is reduced modulo `2 ^ 32` explicitly;
* a pointer to bytes (`const uint8_t*`) is the list of bytes that can be read
  through it; a read past its end (undefined in C) yields `none`;
* a node handle (`struct as_node_s*`) is its address, `0` being `NULL`;
* a flexible array member together with its `size` field is a list, `size`
  being its length.
-/

namespace Aerospike

/-! ## Machine integers -/

/-- One `uint8_t`. -/
abbrev Byte := Fin 256

/-- Number of values of a `uint32_t`. -/
def UINT32_MOD : Nat := 4294967296

/-- Conversion to `uint32_t` of the negative C `int` constant `-m`: its value
modulo `2 ^ 32`. -/
def uint32_of_neg (m : Nat) : Nat := (UINT32_MOD - m % UINT32_MOD) % UINT32_MOD

/-- Subtraction on `uint32_t`: wraps modulo `2 ^ 32`. -/
def uint32_sub (a b : Nat) : Nat := (a + (UINT32_MOD - b % UINT32_MOD)) % UINT32_MOD

/-- The load `*(uint16_t*)p`: the two bytes at `p` as one unsigned 16-bit
value, in the byte order of the little-endian hosts the client is built for.
Reading through a pointer to fewer than two bytes is undefined: `none`. -/
def load_uint16 (p : List Byte) : Option Nat :=
  match p with
  | b0 :: b1 :: _ => some (b0.val + 256 * b1.val)
  | _ => none

/-! ## Data model (`as_partition.h`, TYPES) -/

/-- Address of a `struct as_node_s`; `0` is `NULL`. -/
abbrev as_node_ptr := Nat

/-- The `as_partition` struct: map of one data partition to nodes. -/
structure as_partition where
  master : as_node_ptr
  prole : as_node_ptr
  regime : Nat
deriving DecidableEq, Repr

/-- The `as_partition_table` struct: map of namespace to data partitions.
`partitions` is the flexible array member, `size` its length. -/
structure as_partition_table where
  ref_count : Nat
  ns : String
  sc_mode : Bool
  partitions : List as_partition
deriving DecidableEq, Repr

/-- The `size` field of an `as_partition_table`. -/
def as_partition_table.size (t : as_partition_table) : Nat := t.partitions.length

/-- The `as_partition_tables` struct: reference counted array of partition
table pointers. A slot of `array` is a pointer, `none` being `NULL`. -/
structure as_partition_tables where
  ref_count : Nat
  array : List (Option as_partition_table)
deriving DecidableEq, Repr

/-- The `size` field of an `as_partition_tables`. -/
def as_partition_tables.size (t : as_partition_tables) : Nat := t.array.length

/-! ## Digest to partition id -/

/-- The function `as_partition_getid`:
`return (*(uint16_t*)digest) & (n_partitions - 1);`
The 16-bit value is promoted and converted to `uint32_t` unchanged, the
subtraction is a `uint32_t` subtraction, the result is a `uint32_t`. -/
def as_partition_getid (digest : List Byte) (n_partitions : Nat) : Option Nat :=
  match load_uint16 digest with
  | some v => some ((v &&& uint32_sub n_partitions 1) % UINT32_MOD)
  | none => none

/-- The two-byte digest prefix whose 16-bit value is `v` (modulo `2 ^ 16`). -/
def prefix_of (v : Nat) : Byte × Byte :=
  (⟨v % 256, Nat.mod_lt _ (by norm_num)⟩, ⟨v / 256 % 256, Nat.mod_lt _ (by norm_num)⟩)

/-! ## Reference counting of a collection -/

/-- Modelled from the spec: the macro `as_aaf_uint32` comes from
`aerospike/as_atomic.h`, which is not among the sources. It is the atomic
add-and-fetch on a `uint32_t` ("atomically decrements ref_count; if it reaches
zero ..."): `value` is added to the target modulo `2 ^ 32` and the new value is
returned; the caller stores it as the new content of the target. -/
def as_aaf_uint32 (target value : Nat) : Nat := (target + value) % UINT32_MOD

/-- The memory that reference counting acts on: one collection, and how many
times `as_partition_tables_destroy` has been invoked on it so far. -/
structure tables_state where
  tables : as_partition_tables
  destroy_calls : Nat
deriving DecidableEq, Repr

/-- Modelled from the spec: release of the reference a collection holds on one
of its tables ("their own ref_counts drop by one"). -/
def as_partition_table_unref (slot : Option as_partition_table) : Option as_partition_table :=
  match slot with
  | some t => some { t with ref_count := as_aaf_uint32 t.ref_count (uint32_of_neg 1) }
  | none => none

/-- Modelled from the spec: `as_partition_tables_destroy` is declared in the
header and defined outside the sources. "destroy(collection): internal,
releases all table references, frees the slot array." The invocation is
recorded in `destroy_calls`; every contained table loses the collection's
reference. -/
def as_partition_tables_destroy (s : tables_state) : tables_state :=
  { tables := { s.tables with array := s.tables.array.map as_partition_table_unref },
    destroy_calls := s.destroy_calls + 1 }

/-- The function `as_partition_tables_release`:
`if (as_aaf_uint32(&tables->ref_count, -1) == 0) as_partition_tables_destroy(tables);` -/
def as_partition_tables_release (s : tables_state) : tables_state :=
  let n := as_aaf_uint32 s.tables.ref_count (uint32_of_neg 1)
  let s1 : tables_state := { s with tables := { s.tables with ref_count := n } }
  if n = 0 then as_partition_tables_destroy s1 else s1

/-- Modelled from the spec: the retain operation has no definition in the
sources. "retain: atomically increments ref_count." -/
def as_partition_tables_retain (s : tables_state) : tables_state :=
  { s with tables := { s.tables with ref_count := as_aaf_uint32 s.tables.ref_count 1 } }

/-- Modelled from the spec: `as_partition_tables_create` is declared in the
header and defined outside the sources. "create(capacity): allocates room for
capacity table slots, ref_count = 1." -/
def as_partition_tables_create (capacity : Nat) : as_partition_tables :=
  { ref_count := 1, array := List.replicate capacity none }

/-- The state right after `as_partition_tables_create`: nothing destroyed yet. -/
def created (capacity : Nat) : tables_state :=
  { tables := as_partition_tables_create capacity, destroy_calls := 0 }

/-- A collection with two holders and one empty slot, nothing destroyed. -/
def two_holders : tables_state :=
  { tables := { ref_count := 2, array := [none] }, destroy_calls := 0 }

/-- The two operations a holder performs on the reference count. -/
inductive ref_op where
  | retain
  | release
deriving DecidableEq, Repr

/-- Effect of one operation. -/
def apply_op (s : tables_state) (o : ref_op) : tables_state :=
  match o with
  | ref_op.retain => as_partition_tables_retain s
  | ref_op.release => as_partition_tables_release s

/-- Effect of a sequence of operations, first to last. -/
def run_ops (ops : List ref_op) (s : tables_state) : tables_state :=
  match ops with
  | [] => s
  | o :: rest => run_ops rest (apply_op s o)

/-- The values of `ref_count` along a run: before the first operation and
after each one. -/
def ref_count_path (ops : List ref_op) (s : tables_state) : List Nat :=
  match ops with
  | [] => [s.tables.ref_count]
  | o :: rest => s.tables.ref_count :: ref_count_path rest (apply_op s o)

/-- The values of `destroy_calls` along a run: before the first operation and
after each one. -/
def destroy_path (ops : List ref_op) (s : tables_state) : List Nat :=
  match ops with
  | [] => [s.destroy_calls]
  | o :: rest => s.destroy_calls :: destroy_path rest (apply_op s o)

/-- The state after `k` retains followed by `j` releases on a fresh collection. -/
def after_retains_releases (capacity k j : Nat) : tables_state :=
  run_ops (List.replicate k ref_op.retain ++ List.replicate j ref_op.release) (created capacity)

/-- Out of `k + 1` releases that follow `k` retains, the last one and only the
last one invokes destroy. -/
def destroyed_exactly_on_last_release (capacity k : Nat) : Prop :=
  (∀ j, j ≤ k → (after_retains_releases capacity k j).destroy_calls = 0) ∧
  (after_retains_releases capacity k (k + 1)).destroy_calls = 1

/-- Modelled from the spec: the scan of one table's entries, part of
`find_node` ("returns true if node appears as master or prole"). -/
def as_partition_table_find_node (partitions : List as_partition) (node : as_node_ptr) : Bool :=
  match partitions with
  | [] => false
  | p :: rest =>
    if p.master = node ∨ p.prole = node then true
    else as_partition_table_find_node rest node

/-- Modelled from the spec: the scan of the slots of a collection, table by
table, part of `find_node` ("scans every table's every entry"). -/
def find_node_loop (array : List (Option as_partition_table)) (node : as_node_ptr) : Bool :=
  match array with
  | [] => false
  | none :: rest => find_node_loop rest node
  | some table :: rest =>
    if as_partition_table_find_node table.partitions node then true
    else find_node_loop rest node

/-- Modelled from the spec: `as_partition_tables_find_node` is declared in the
header and defined outside the sources. "find_node(collection, node): scans
every table's every entry; returns true if node appears as master or prole
anywhere." -/
def as_partition_tables_find_node (tables : as_partition_tables) (node : as_node_ptr) : Bool :=
  find_node_loop tables.array node


/-! ## Facts about the machine arithmetic -/

theorem uint32_sub_one (n : Nat) (hn : n < UINT32_MOD) :
    uint32_sub n 1 = if n = 0 then 4294967295 else n - 1 := by
  unfold uint32_sub UINT32_MOD at *
  split <;> omega

theorem load_uint16_cons (b0 b1 : Byte) (rest : List Byte) :
    load_uint16 (b0 :: b1 :: rest) = some (b0.val + 256 * b1.val) := rfl

theorem load_uint16_of_length {digest : List Byte} (h : 2 ≤ digest.length) :
    ∃ b0 b1 rest, digest = b0 :: b1 :: rest := by
  match digest, h with
  | b0 :: b1 :: rest, _ => exact ⟨b0, b1, rest, rfl⟩

theorem prefix_lt (b0 b1 : Byte) : b0.val + 256 * b1.val < 65536 := by
  have h0 := b0.isLt
  have h1 := b1.isLt
  omega

theorem getid_cons (b0 b1 : Byte) (rest : List Byte) (n : Nat) :
    as_partition_getid (b0 :: b1 :: rest) n
      = some (((b0.val + 256 * b1.val) &&& uint32_sub n 1) % UINT32_MOD) := rfl

theorem getid_mask (b0 b1 : Byte) (rest : List Byte) (n : Nat) (hn : n < UINT32_MOD) :
    as_partition_getid (b0 :: b1 :: rest) n
      = some ((b0.val + 256 * b1.val) &&& (if n = 0 then 4294967295 else n - 1)) := by
  rw [getid_cons, uint32_sub_one n hn]
  have h1 : (b0.val + 256 * b1.val) &&& (if n = 0 then 4294967295 else n - 1)
      ≤ b0.val + 256 * b1.val := Nat.and_le_left
  have h2 := prefix_lt b0 b1
  rw [Nat.mod_eq_of_lt]
  unfold UINT32_MOD
  omega

theorem getid_mod_pow (b0 b1 : Byte) (rest : List Byte) (k : Nat) (hk : k < 32) :
    as_partition_getid (b0 :: b1 :: rest) (2 ^ k) = some ((b0.val + 256 * b1.val) % 2 ^ k) := by
  have hlt : 2 ^ k < UINT32_MOD := by
    have : 2 ^ k < 2 ^ 32 := Nat.pow_lt_pow_right (by norm_num) hk
    simpa [UINT32_MOD] using this
  have hne : 2 ^ k ≠ 0 := by positivity
  rw [getid_mask b0 b1 rest _ hlt, if_neg hne, Nat.and_pow_two_sub_one_eq_mod]


theorem getid_take_two (digest : List Byte) (n : Nat) :
    as_partition_getid digest n = as_partition_getid (digest.take 2) n := by
  match digest with
  | [] => rfl
  | [_] => rfl
  | _ :: _ :: _ => rfl

theorem prefix_count (n m p : Nat) (hnm : n * m = 65536) (hp : p < n) :
    ((Finset.univ : Finset (Byte × Byte)).filter
      (fun pr => (pr.1.val + 256 * pr.2.val) % n = p)).card = m := by
  have himg : (Finset.univ : Finset (Byte × Byte)).filter
      (fun pr => (pr.1.val + 256 * pr.2.val) % n = p)
      = (Finset.range m).image (fun q => prefix_of (p + n * q)) := by
    ext ⟨b0, b1⟩
    simp only [Finset.mem_filter, Finset.mem_univ, true_and, Finset.mem_image, Finset.mem_range]
    constructor
    · intro h
      have hv := prefix_lt b0 b1
      have hdiv := Nat.mod_add_div (b0.val + 256 * b1.val) n
      rw [h] at hdiv
      refine ⟨(b0.val + 256 * b1.val) / n, ?_, ?_⟩
      · rw [Nat.div_lt_iff_lt_mul (by omega)]
        have hmn : m * n = 65536 := by rw [Nat.mul_comm]; exact hnm
        omega
      · rw [hdiv]
        have h0 := b0.isLt
        have h1 := b1.isLt
        unfold prefix_of
        ext
        · simp only; omega
        · simp only; omega
    · rintro ⟨q, hq, hf⟩
      have hlt : p + n * q < 65536 := by
        have : n * (q + 1) ≤ n * m := Nat.mul_le_mul_left n hq
        rw [Nat.mul_add, Nat.mul_one] at this
        omega
      unfold prefix_of at hf
      have e0 : b0.val = (p + n * q) % 256 := by rw [← congrArg (fun x => x.1.val) hf]
      have e1 : b1.val = (p + n * q) / 256 % 256 := by rw [← congrArg (fun x => x.2.val) hf]
      have : b0.val + 256 * b1.val = p + n * q := by omega
      rw [this, Nat.add_mul_mod_self_left, Nat.mod_eq_of_lt hp]
  rw [himg, Finset.card_image_of_injOn, Finset.card_range]
  intro q1 h1 q2 h2 heq
  simp only [Finset.coe_range, Set.mem_Iio] at h1 h2
  have hlt : ∀ q, q < m → p + n * q < 65536 := by
    intro q hq
    have : n * (q + 1) ≤ n * m := Nat.mul_le_mul_left n hq
    rw [Nat.mul_add, Nat.mul_one] at this
    omega
  have l1 := hlt q1 h1
  have l2 := hlt q2 h2
  unfold prefix_of at heq
  have e0 := congrArg (fun x => x.1.val) heq
  have e1 := congrArg (fun x => x.2.val) heq
  simp only at e0 e1
  have : p + n * q1 = p + n * q2 := by omega
  have hn : 0 < n := by omega
  exact Nat.eq_of_mul_eq_mul_left hn (by omega)


/-- C1: for every digest of at least two bytes and every 32-bit partition
count `n` that is a power of two, `as_partition_getid digest n` returns an id
strictly below `n`, so every partition table of size `n` has an entry at that
index. -/
theorem as_partition_getid_lt (digest : List Byte) (n k : Nat)
    (hlen : 2 ≤ digest.length) (hn : n < UINT32_MOD) (hpow : n = 2 ^ k) :
    ∃ id, as_partition_getid digest n = some id ∧ id < n
      ∧ ∀ table : as_partition_table, table.size = n →
          ∃ entry, table.partitions[id]? = some entry := by
  obtain ⟨b0, b1, rest, rfl⟩ := load_uint16_of_length hlen
  have hpos : 0 < n := by rw [hpow]; positivity
  have hle : (b0.val + 256 * b1.val) &&& (n - 1) ≤ n - 1 := Nat.and_le_right
  refine ⟨_, getid_mask b0 b1 rest n hn, ?_, ?_⟩
  · rw [if_neg (by omega)]
    omega
  · intro table hsize
    rw [if_neg (by omega)]
    have hlt : (b0.val + 256 * b1.val) &&& (n - 1) < table.partitions.length := by
      unfold as_partition_table.size at hsize
      omega
    exact ⟨_, List.getElem?_eq_getElem hlt⟩

theorem as_partition_getid_lt_witness :
    ∃ id, as_partition_getid [255, 255, 7] 4096 = some id ∧ id < 4096
      ∧ ∀ table : as_partition_table, table.size = 4096 →
          ∃ entry, table.partitions[id]? = some entry :=
  as_partition_getid_lt [255, 255, 7] 4096 12 (by decide) (by decide) (by decide)

/-- C2: for every digest and every 32-bit `n_partitions`, the id is the
little-endian 16-bit value of the first two bytes, `digest[0] + 256 * digest[1]`,
bitwise-ANDed with `n_partitions - 1` (which is `2 ^ 32 - 1` when `n_partitions`
is `0`); with 4 partitions and first bytes `03 00` the id is 3. -/
theorem as_partition_getid_eq (b0 b1 : Byte) (rest : List Byte) (n_partitions : Nat)
    (hn : n_partitions < UINT32_MOD) :
    as_partition_getid (b0 :: b1 :: rest) n_partitions
        = some ((b0.val + 256 * b1.val) &&&
            (if n_partitions = 0 then 4294967295 else n_partitions - 1))
      ∧ as_partition_getid (3 :: 0 :: rest) 4 = some 3 :=
  ⟨getid_mask b0 b1 rest n_partitions hn, by rw [getid_cons]; decide⟩

theorem as_partition_getid_eq_witness :
    as_partition_getid [0x34, 0x12, 0xff] 256 = some ((0x34 + 256 * 0x12) &&& (256 - 1))
      ∧ as_partition_getid [3, 0, 0xff] 4 = some 3 :=
  as_partition_getid_eq 0x34 0x12 [0xff] 256 (by decide)

/-- C6: `as_partition_getid` depends on the digest only through its first two
bytes: two digests that agree on bytes 0 and 1 get the same id for every
`n_partitions`, whatever their later bytes. -/
theorem as_partition_getid_prefix_only (d1 d2 : List Byte) (n_partitions : Nat)
    (h : d1.take 2 = d2.take 2) :
    as_partition_getid d1 n_partitions = as_partition_getid d2 n_partitions := by
  rw [getid_take_two d1, getid_take_two d2, h]

theorem as_partition_getid_prefix_only_witness :
    as_partition_getid [9, 1, 0, 0, 0] 4096 = as_partition_getid [9, 1, 200, 17] 4096 :=
  as_partition_getid_prefix_only [9, 1, 0, 0, 0] [9, 1, 200, 17] 4096 (by decide)

/-- C9: the bound needs no power of two: for every digest and every 32-bit
`n_partitions ≥ 1` the id is at most `n_partitions - 1`; for `n_partitions = 0`
the mask `n_partitions - 1` wraps to `2 ^ 32 - 1` and the id is the unmasked
16-bit value of the first two bytes. -/
theorem as_partition_getid_le_pred (b0 b1 : Byte) (rest : List Byte) (n_partitions : Nat)
    (hn : n_partitions < UINT32_MOD) (hpos : 1 ≤ n_partitions) :
    (∃ id, as_partition_getid (b0 :: b1 :: rest) n_partitions = some id
        ∧ id ≤ n_partitions - 1)
      ∧ uint32_sub 0 1 = 4294967295
      ∧ as_partition_getid (b0 :: b1 :: rest) 0 = some (b0.val + 256 * b1.val) := by
  refine ⟨⟨_, getid_mask b0 b1 rest n_partitions hn, ?_⟩, by decide, ?_⟩
  · rw [if_neg (by omega)]
    exact Nat.and_le_right
  · rw [getid_mask b0 b1 rest 0 (by decide), if_pos rfl]
    have h := Nat.and_pow_two_sub_one_eq_mod (b0.val + 256 * b1.val) 32
    have hv := prefix_lt b0 b1
    norm_num at h
    rw [h, Nat.mod_eq_of_lt (by omega)]

theorem as_partition_getid_le_pred_witness :
    (∃ id, as_partition_getid [255, 255, 1] 3 = some id ∧ id ≤ 3 - 1)
      ∧ uint32_sub 0 1 = 4294967295
      ∧ as_partition_getid [255, 255, 1] 0 = some (255 + 256 * 255) :=
  as_partition_getid_le_pred 255 255 [1] 3 (by decide) (by decide)

/-- C10: for every power of two `n = 2 ^ k` up to 65536, the id of a digest is
the 16-bit value of its first two bytes modulo `n`, and every id `p < n` is the
id of exactly `65536 / n` of the 65536 two-byte prefixes. -/
theorem as_partition_getid_uniform (k p : Nat) (hk : k ≤ 16) (hp : p < 2 ^ k) :
    (∀ (b0 b1 : Byte) (rest : List Byte),
        as_partition_getid (b0 :: b1 :: rest) (2 ^ k)
          = some ((b0.val + 256 * b1.val) % 2 ^ k))
      ∧ ((Finset.univ : Finset (Byte × Byte)).filter
          (fun pr => as_partition_getid [pr.1, pr.2] (2 ^ k) = some p)).card
        = 65536 / 2 ^ k := by
  have hmod : ∀ (b0 b1 : Byte) (rest : List Byte),
      as_partition_getid (b0 :: b1 :: rest) (2 ^ k)
        = some ((b0.val + 256 * b1.val) % 2 ^ k) :=
    fun b0 b1 rest => getid_mod_pow b0 b1 rest k (by omega)
  refine ⟨hmod, ?_⟩
  have hnm : 2 ^ k * 2 ^ (16 - k) = 65536 := by
    rw [← Nat.pow_add, Nat.add_sub_cancel' hk]
  have hdiv : 65536 / 2 ^ k = 2 ^ (16 - k) := by
    rw [← hnm, Nat.mul_div_cancel_left _ (by positivity)]
  rw [hdiv, ← prefix_count (2 ^ k) (2 ^ (16 - k)) p hnm hp]
  apply congrArg Finset.card
  apply Finset.filter_congr
  intro pr _
  rw [hmod pr.1 pr.2 []]
  simp

theorem as_partition_getid_uniform_witness :
    (∀ (b0 b1 : Byte) (rest : List Byte),
        as_partition_getid (b0 :: b1 :: rest) (2 ^ 12)
          = some ((b0.val + 256 * b1.val) % 2 ^ 12))
      ∧ ((Finset.univ : Finset (Byte × Byte)).filter
          (fun pr => as_partition_getid [pr.1, pr.2] (2 ^ 12) = some 4095)).card
        = 65536 / 2 ^ 12 :=
  as_partition_getid_uniform 12 4095 (by norm_num) (by norm_num)

/-! ## Facts about reference counting -/

theorem uint32_of_neg_one : uint32_of_neg 1 = 4294967295 := by decide

theorem release_unfold (s : tables_state) :
    as_partition_tables_release s
      = if (s.tables.ref_count + 4294967295) % 4294967296 = 0
        then as_partition_tables_destroy
          { s with tables := { s.tables with
              ref_count := (s.tables.ref_count + 4294967295) % 4294967296 } }
        else { s with tables := { s.tables with
              ref_count := (s.tables.ref_count + 4294967295) % 4294967296 } } := by
  unfold as_partition_tables_release as_aaf_uint32
  rw [uint32_of_neg_one]
  rfl

theorem release_ref_count (s : tables_state) :
    (as_partition_tables_release s).tables.ref_count
      = (s.tables.ref_count + 4294967295) % 4294967296 := by
  rw [release_unfold]
  split <;> rfl

theorem release_destroy_calls (s : tables_state) :
    (as_partition_tables_release s).destroy_calls
      = if (s.tables.ref_count + 4294967295) % 4294967296 = 0
        then s.destroy_calls + 1 else s.destroy_calls := by
  rw [release_unfold]
  split <;> rfl

theorem retain_ref_count (s : tables_state) :
    (as_partition_tables_retain s).tables.ref_count
      = (s.tables.ref_count + 1) % 4294967296 := rfl

theorem retain_destroy_calls (s : tables_state) :
    (as_partition_tables_retain s).destroy_calls = s.destroy_calls := rfl

theorem run_ops_append (l1 l2 : List ref_op) (s : tables_state) :
    run_ops (l1 ++ l2) s = run_ops l2 (run_ops l1 s) := by
  induction l1 generalizing s with
  | nil => rfl
  | cons o rest ih => exact ih (apply_op s o)

theorem run_ops_cons (o : ref_op) (rest : List ref_op) (s : tables_state) :
    run_ops (o :: rest) s = run_ops rest (apply_op s o) := rfl

theorem run_retains (k : Nat) (s : tables_state) (hs : s.tables.ref_count < 4294967296) :
    (run_ops (List.replicate k ref_op.retain) s).tables.ref_count
        = (s.tables.ref_count + k) % 4294967296
      ∧ (run_ops (List.replicate k ref_op.retain) s).destroy_calls = s.destroy_calls := by
  induction k generalizing s with
  | zero =>
    constructor
    · show s.tables.ref_count = _
      omega
    · rfl
  | succ k ih =>
    rw [List.replicate_succ, run_ops_cons]
    have hr : (as_partition_tables_retain s).tables.ref_count < 4294967296 := by
      rw [retain_ref_count]; omega
    obtain ⟨h1, h2⟩ := ih (as_partition_tables_retain s) hr
    constructor
    · show (run_ops _ (as_partition_tables_retain s)).tables.ref_count = _
      rw [h1, retain_ref_count]; omega
    · show (run_ops _ (as_partition_tables_retain s)).destroy_calls = _
      rw [h2, retain_destroy_calls]

theorem run_releases (j m : Nat) (s : tables_state)
    (hs : s.tables.ref_count = m % 4294967296) (hj : j ≤ m)
    (hne : ∀ i, 1 ≤ i → i ≤ j → (m - i) % 4294967296 ≠ 0) :
    (run_ops (List.replicate j ref_op.release) s).tables.ref_count
        = (m - j) % 4294967296
      ∧ (run_ops (List.replicate j ref_op.release) s).destroy_calls = s.destroy_calls := by
  induction j generalizing s m with
  | zero => exact ⟨hs, rfl⟩
  | succ j ih =>
    rw [List.replicate_succ, run_ops_cons]
    have h1 := hne 1 (le_refl 1) (by omega)
    have hrc : (as_partition_tables_release s).tables.ref_count = (m - 1) % 4294967296 := by
      rw [release_ref_count, hs]; omega
    have hdc : (as_partition_tables_release s).destroy_calls = s.destroy_calls := by
      rw [release_destroy_calls, if_neg]
      rw [hs]; omega
    have hne2 : ∀ i, 1 ≤ i → i ≤ j → (m - 1 - i) % 4294967296 ≠ 0 := by
      intro i hi1 hi2
      have := hne (i + 1) (by omega) (by omega)
      rwa [show m - (i + 1) = m - 1 - i by omega] at this
    obtain ⟨e1, e2⟩ := ih (m - 1) (as_partition_tables_release s) hrc (by omega) hne2
    constructor
    · show (run_ops _ (as_partition_tables_release s)).tables.ref_count = _
      rw [e1, show m - 1 - j = m - (j + 1) by omega]
    · show (run_ops _ (as_partition_tables_release s)).destroy_calls = _
      rw [e2, hdc]

theorem created_ref_count (capacity : Nat) : (created capacity).tables.ref_count = 1 := rfl

theorem created_destroy_calls (capacity : Nat) : (created capacity).destroy_calls = 0 := rfl

/-- After `k` retains and `j ≤ k` releases nothing has been destroyed, and the
count is `k + 1 - j` modulo `2 ^ 32`. -/
theorem after_retains_releases_early (capacity k j : Nat) (hk : k < 4294967296) (hj : j ≤ k) :
    (after_retains_releases capacity k j).tables.ref_count = (k + 1 - j) % 4294967296
      ∧ (after_retains_releases capacity k j).destroy_calls = 0 := by
  unfold after_retains_releases
  rw [run_ops_append]
  obtain ⟨r1, r2⟩ := run_retains k (created capacity) (by rw [created_ref_count]; omega)
  rw [created_ref_count] at r1
  rw [created_destroy_calls] at r2
  have hs : (run_ops (List.replicate k ref_op.retain) (created capacity)).tables.ref_count
      = (k + 1) % 4294967296 := by rw [r1, Nat.add_comm]
  obtain ⟨e1, e2⟩ := run_releases j (k + 1) _ hs (by omega) (by intro i h1 h2; omega)
  exact ⟨e1, by rw [e2, r2]⟩

theorem after_retains_releases_succ (capacity k j : Nat) :
    after_retains_releases capacity k (j + 1)
      = as_partition_tables_release (after_retains_releases capacity k j) := by
  unfold after_retains_releases
  rw [List.replicate_succ', ← List.append_assoc, run_ops_append]
  rfl

theorem after_retains_releases_last (capacity k : Nat) (hk : k < 4294967296) :
    (after_retains_releases capacity k (k + 1)).tables.ref_count = 0
      ∧ (after_retains_releases capacity k (k + 1)).destroy_calls = 1 := by
  obtain ⟨e1, e2⟩ := after_retains_releases_early capacity k k hk (le_refl k)
  rw [after_retains_releases_succ, release_ref_count, release_destroy_calls, e1, e2]
  have : k + 1 - k = 1 := by omega
  rw [this]
  exact ⟨by decide, by decide⟩

theorem after_retains_zero_releases (capacity k : Nat) :
    after_retains_releases capacity k 0
      = run_ops (List.replicate k ref_op.retain) (created capacity) := by
  unfold after_retains_releases
  rw [run_ops_append]
  rfl

theorem apply_op_retain (s : tables_state) :
    apply_op s ref_op.retain = as_partition_tables_retain s := rfl

theorem apply_op_release (s : tables_state) :
    apply_op s ref_op.release = as_partition_tables_release s := rfl

/-- C3: `as_partition_tables_release` decrements the 32-bit `ref_count` by
exactly one (adding -1 modulo `2 ^ 32`, so `0` becomes `2 ^ 32 - 1`); it invokes
`as_partition_tables_destroy` if and only if the count after the decrement is
zero; when the new count is not zero, nothing is destroyed and nothing but
`ref_count` changes. -/
theorem as_partition_tables_release_spec (s : tables_state)
    (hrc : s.tables.ref_count < UINT32_MOD) :
    (as_partition_tables_release s).tables.ref_count
        = (if s.tables.ref_count = 0 then 4294967295 else s.tables.ref_count - 1)
      ∧ ((as_partition_tables_release s).destroy_calls = s.destroy_calls + 1
          ↔ (as_partition_tables_release s).tables.ref_count = 0)
      ∧ ((as_partition_tables_release s).tables.ref_count = 0 →
          as_partition_tables_release s
            = as_partition_tables_destroy
                { s with tables := { s.tables with ref_count := 0 } })
      ∧ ((as_partition_tables_release s).tables.ref_count ≠ 0 →
          as_partition_tables_release s
            = { s with tables := { s.tables with
                  ref_count := (if s.tables.ref_count = 0 then 4294967295
                                else s.tables.ref_count - 1) } }) := by
  have hnew : (s.tables.ref_count + 4294967295) % 4294967296
      = (if s.tables.ref_count = 0 then 4294967295 else s.tables.ref_count - 1) := by
    unfold UINT32_MOD at hrc
    split <;> omega
  have hrel := release_unfold s
  rw [hnew] at hrel
  refine ⟨by rw [release_ref_count, hnew], ?_, ?_, ?_⟩
  · rw [release_destroy_calls, release_ref_count, hnew]
    constructor
    · intro h
      by_contra hc
      rw [if_neg hc] at h
      omega
    · intro h
      rw [if_pos h]
  · rw [release_ref_count, hnew]
    intro h
    rw [hrel, if_pos h, h]
  · rw [release_ref_count, hnew]
    intro h
    rw [hrel, if_neg h]

theorem as_partition_tables_release_spec_witness :
    (as_partition_tables_release two_holders).tables.ref_count
        = (if two_holders.tables.ref_count = 0 then 4294967295
           else two_holders.tables.ref_count - 1)
      ∧ ((as_partition_tables_release two_holders).destroy_calls
            = two_holders.destroy_calls + 1
          ↔ (as_partition_tables_release two_holders).tables.ref_count = 0)
      ∧ ((as_partition_tables_release two_holders).tables.ref_count = 0 →
          as_partition_tables_release two_holders
            = as_partition_tables_destroy
                { two_holders with tables := { two_holders.tables with ref_count := 0 } })
      ∧ ((as_partition_tables_release two_holders).tables.ref_count ≠ 0 →
          as_partition_tables_release two_holders
            = { two_holders with tables := { two_holders.tables with
                  ref_count := (if two_holders.tables.ref_count = 0 then 4294967295
                                else two_holders.tables.ref_count - 1) } }) :=
  as_partition_tables_release_spec two_holders (by decide)

/-- C4 (amended): on a freshly created collection (`ref_count = 1`), for every
`k < 2 ^ 32`, `k` retains followed by `k + 1` releases invoke destroy exactly
once, on the last release and on no earlier one; after `j` of the releases the
count is `k + 1 - j` modulo `2 ^ 32`; for `k = 2` the count follows
1, 2, 3, 2, 1, 0 and destroy is invoked by the third release. -/
theorem release_destroys_exactly_on_last (capacity k : Nat) (hk : k < UINT32_MOD) :
    destroyed_exactly_on_last_release capacity k
      ∧ (∀ j, j ≤ k + 1 →
          (after_retains_releases capacity k j).tables.ref_count = (k + 1 - j) % UINT32_MOD)
      ∧ ref_count_path [ref_op.retain, ref_op.retain, ref_op.release, ref_op.release,
            ref_op.release] (created capacity) = [1, 2, 3, 2, 1, 0]
      ∧ destroy_path [ref_op.retain, ref_op.retain, ref_op.release, ref_op.release,
            ref_op.release] (created capacity) = [0, 0, 0, 0, 0, 1] := by
  unfold UINT32_MOD at *
  refine ⟨⟨fun j hj => (after_retains_releases_early capacity k j hk hj).2,
    (after_retains_releases_last capacity k hk).2⟩, ?_, ?_, ?_⟩
  · intro j hj
    by_cases hjk : j ≤ k
    · exact (after_retains_releases_early capacity k j hk hjk).1
    · have : j = k + 1 := by omega
      subst this
      rw [(after_retains_releases_last capacity k hk).1]
      simp
  · simp only [ref_count_path, apply_op_retain, apply_op_release, release_ref_count,
      retain_ref_count, created_ref_count]
  · simp only [destroy_path, apply_op_retain, apply_op_release, release_destroy_calls,
      release_ref_count, retain_ref_count, retain_destroy_calls, created_ref_count,
      created_destroy_calls]
    decide

theorem release_destroys_exactly_on_last_witness :
    destroyed_exactly_on_last_release 1 2
      ∧ (∀ j, j ≤ 2 + 1 →
          (after_retains_releases 1 2 j).tables.ref_count = (2 + 1 - j) % UINT32_MOD)
      ∧ ref_count_path [ref_op.retain, ref_op.retain, ref_op.release, ref_op.release,
            ref_op.release] (created 1) = [1, 2, 3, 2, 1, 0]
      ∧ destroy_path [ref_op.retain, ref_op.retain, ref_op.release, ref_op.release,
            ref_op.release] (created 1) = [0, 0, 0, 0, 0, 1] :=
  release_destroys_exactly_on_last 1 2 (by decide)

/-- C4 fails as stated: after `2 ^ 32` retains the 32-bit count is back at 1,
and the first of the `2 ^ 32 + 1` releases already invokes destroy. -/
theorem release_destroys_early_after_wrap :
    (after_retains_releases 0 4294967296 1).destroy_calls = 1
      ∧ ¬ destroyed_exactly_on_last_release 0 4294967296 := by
  have h0 := run_retains 4294967296 (created 0) (by rw [created_ref_count]; decide)
  rw [created_ref_count, created_destroy_calls, ← after_retains_zero_releases] at h0
  have h1 : (after_retains_releases 0 4294967296 1).destroy_calls = 1 := by
    rw [after_retains_releases_succ 0 4294967296 0, release_destroy_calls, h0.1, h0.2]
    decide
  refine ⟨h1, ?_⟩
  intro hc
  have := hc.1 1 (by decide)
  omega

theorem table_find_node_iff (partitions : List as_partition) (node : as_node_ptr) :
    as_partition_table_find_node partitions node = true
      ↔ ∃ p, p ∈ partitions ∧ (p.master = node ∨ p.prole = node) := by
  induction partitions with
  | nil => simp [as_partition_table_find_node]
  | cons p rest ih =>
    unfold as_partition_table_find_node
    by_cases h : p.master = node ∨ p.prole = node
    · rw [if_pos h]
      exact ⟨fun _ => ⟨p, List.mem_cons_self p rest, h⟩, fun _ => rfl⟩
    · rw [if_neg h, ih]
      constructor
      · rintro ⟨q, hq, hm⟩
        exact ⟨q, List.mem_cons_of_mem p hq, hm⟩
      · rintro ⟨q, hq, hm⟩
        rcases List.mem_cons.mp hq with e | e
        · exact absurd (e ▸ hm) h
        · exact ⟨q, e, hm⟩

theorem find_node_loop_iff (array : List (Option as_partition_table)) (node : as_node_ptr) :
    find_node_loop array node = true
      ↔ ∃ table, some table ∈ array
          ∧ ∃ p, p ∈ table.partitions ∧ (p.master = node ∨ p.prole = node) := by
  induction array with
  | nil => simp [find_node_loop]
  | cons slot rest ih =>
    cases slot with
    | none =>
      unfold find_node_loop
      rw [ih]
      constructor
      · rintro ⟨tb, ht, hp⟩
        exact ⟨tb, List.mem_cons_of_mem none ht, hp⟩
      · rintro ⟨tb, ht, hp⟩
        rcases List.mem_cons.mp ht with e | e
        · exact absurd e (by simp)
        · exact ⟨tb, e, hp⟩
    | some table =>
      unfold find_node_loop
      by_cases h : as_partition_table_find_node table.partitions node = true
      · rw [if_pos h]
        exact ⟨fun _ => ⟨table, List.mem_cons_self _ rest,
          (table_find_node_iff table.partitions node).mp h⟩, fun _ => rfl⟩
      · rw [if_neg h, ih]
        constructor
        · rintro ⟨tb, ht, hp⟩
          exact ⟨tb, List.mem_cons_of_mem _ ht, hp⟩
        · rintro ⟨tb, ht, hp⟩
          rcases List.mem_cons.mp ht with e | e
          · have e2 : tb = table := Option.some.inj e
            rw [e2] at hp
            exact absurd ((table_find_node_iff table.partitions node).mpr hp) h
          · exact ⟨tb, e, hp⟩

/-- C8: `as_partition_tables_find_node` returns true if and only if some table
of the collection has a partition entry whose master or prole is the node; it
returns false exactly for a node that is in no entry, and always for an empty
collection. -/
theorem as_partition_tables_find_node_iff (tables : as_partition_tables) (node : as_node_ptr) :
    (as_partition_tables_find_node tables node = true
        ↔ ∃ table, some table ∈ tables.array
            ∧ ∃ p, p ∈ table.partitions ∧ (p.master = node ∨ p.prole = node))
      ∧ (as_partition_tables_find_node tables node = false
        ↔ ¬ ∃ table, some table ∈ tables.array
            ∧ ∃ p, p ∈ table.partitions ∧ (p.master = node ∨ p.prole = node))
      ∧ as_partition_tables_find_node { tables with array := [] } node = false := by
  have hiff := find_node_loop_iff tables.array node
  refine ⟨hiff, ?_, rfl⟩
  rw [← hiff]
  show find_node_loop tables.array node = false ↔ _
  cases find_node_loop tables.array node <;> simp

end Aerospike
